import Mathlib

set_option maxRecDepth 16000

/-!
# Verification of the tex word counter and progress chart renderer

Shallow embedding of `scripts/tex_word_counter.py` and
`scripts/generate_progress_chart.py`.

The word counter is a pipeline of regex substitutions applied in a fixed
order (source lines 44-67).  Each substitution is embedded as a structural
left-to-right scanner over `List Char`.  A scanner that replaces a match
skips exactly the matched characters (a countdown in the first argument),
which keeps every definition structurally recursive and hence kernel
evaluable.

The chart renderer works with Python floats; they are embedded as exact
rationals (`ℚ`), and Python's `:.1f` formatting as decimal rounding of the
rational.  The renderer's implicit wall-clock date (`datetime.now`) is
reified as an explicit `today` parameter.
-/

/-- Characters Python's `str.split()` treats as whitespace (ASCII range). -/
def isSpaceChar (c : Char) : Bool :=
  c == ' ' || c == '\t' || c == '\n' || c == '\r' || c == '\x0b' || c == '\x0c'

/-- `[a-zA-Z]` of the regexes at source lines 51-59. -/
def isAlphaChar (c : Char) : Bool :=
  ('a' ≤ c && c ≤ 'z') || ('A' ≤ c && c ≤ 'Z')

/-- Split a character list at the first occurrence of `t`:
`some (before, after)` when `t` occurs, `none` otherwise.  This is the
semantics of the regex fragments `[^}]*\x7d`, `[^\]]*\]` and `[^$]+\$`
(a negated character class followed by the literal): the class greedily
consumes up to the first occurrence of the literal. -/
def splitAtFirst (t : Char) : List Char → Option (List Char × List Char)
  | [] => none
  | c :: rest =>
    if c = t then some ([], rest)
    else
      match splitAtFirst t rest with
      | some (a, b) => some (c :: a, b)
      | none => none

/-- Drop the literal prefix `p` from `l`, if present. -/
def dropPrefixQ : List Char → List Char → Option (List Char)
  | [], l => some l
  | _ :: _, [] => none
  | p :: ps, c :: cs => if c = p then dropPrefixQ ps cs else none

/-! ## Stage 1 — `re.sub(r"%.*$", "", content, flags=re.MULTILINE)` (line 47)

A per-line transducer: in normal mode a `%` switches to comment mode (the
`%` and everything up to the next newline is dropped); a newline leaves
comment mode and is kept. -/

def stripCommentsAux : Bool → List Char → List Char
  | _, [] => []
  | false, c :: rest =>
    if c = '%' then stripCommentsAux true rest else c :: stripCommentsAux false rest
  | true, c :: rest =>
    if c = '\n' then '\n' :: stripCommentsAux false rest else stripCommentsAux true rest

def stripComments (l : List Char) : List Char := stripCommentsAux false l

/-- The mode `stripCommentsAux` is left in after consuming `l`. -/
def commentEndState : Bool → List Char → Bool
  | b, [] => b
  | false, c :: rest => commentEndState (if c = '%' then true else false) rest
  | true, c :: rest => commentEndState (if c = '\n' then false else true) rest

/-! ## Stage 2 — `re.sub(r"\\(textbf|textit|emph|underline)\{([^}]*)\}", r"\2", content)` (line 51) -/

/-- Try one alternative of the emphasis-command regex at the current
position: the command name, then `\x7b`, then the shortest run of
non-`\x7d` characters, then `\x7d`.  Returns the brace content (the
replacement, group 2) and the unconsumed suffix. -/
def matchEmphName (name l : List Char) : Option (List Char × List Char) :=
  match dropPrefixQ name l with
  | some (c :: rest) => if c = '{' then splitAtFirst '}' rest else none
  | _ => none

/-- The alternation `textbf|textit|emph|underline`, tried left to right as
Python's regex engine does. -/
def matchEmph (l : List Char) : Option (List Char × List Char) :=
  match matchEmphName "textbf".toList l with
  | some r => some r
  | none =>
    match matchEmphName "textit".toList l with
    | some r => some r
    | none =>
      match matchEmphName "emph".toList l with
      | some r => some r
      | none => matchEmphName "underline".toList l

/-- Scanner for stage 2.  In mode `n+1` the next character is part of an
already-reported match and is skipped.  In mode `0`, at a backslash whose
suffix matches the emphasis pattern, the group-2 content is emitted and the
matched characters are skipped; the replacement is not rescanned, exactly
as `re.sub` continues after the match. -/
def seAux : Nat → List Char → List Char
  | _ + 1, [] => []
  | n + 1, _ :: rest => seAux n rest
  | 0, [] => []
  | 0, c :: rest =>
    if c = '\\' then
      match matchEmph rest with
      | some (content, rest') => content ++ seAux (rest.length - rest'.length) rest
      | none => c :: seAux 0 rest
    else c :: seAux 0 rest

def stripEmph (l : List Char) : List Char := seAux 0 l

/-! ## Stage 3 — `re.sub(r"\\[a-zA-Z]+\*?(\[[^\]]*\])?(\{[^}]*\})?", " ", content)` (line 54) -/

/-- `\*?`: consume one star if present. -/
def optStar : List Char → List Char
  | c :: t => if c = '*' then t else c :: t
  | [] => []

/-- An optional delimited group such as `(\[[^\]]*\])?`: consumed only when
the opening delimiter is next and a closing delimiter occurs later;
otherwise the group matches empty and nothing is consumed. -/
def optGroup (op cl : Char) (l : List Char) : List Char :=
  match l with
  | c :: t =>
    if c = op then
      match splitAtFirst cl t with
      | some (_, t') => t'
      | none => l
    else l
  | [] => []

/-- Match the command pattern right after a backslash: one or more letters,
an optional `*`, an optional `[...]` group, an optional `\x7b...\x7d`
group.  Returns the unconsumed suffix. -/
def matchCmd (l : List Char) : Option (List Char) :=
  if (l.takeWhile isAlphaChar).isEmpty then none
  else some (optGroup '{' '}' (optGroup '[' ']' (optStar (l.dropWhile isAlphaChar))))

def scAux : Nat → List Char → List Char
  | _ + 1, [] => []
  | n + 1, _ :: rest => scAux n rest
  | 0, [] => []
  | 0, c :: rest =>
    if c = '\\' then
      match matchCmd rest with
      | some rest' => ' ' :: scAux (rest.length - rest'.length) rest
      | none => c :: scAux 0 rest
    else c :: scAux 0 rest

def stripCmd (l : List Char) : List Char := scAux 0 l

/-! ## Stage 4 — `re.sub(r"\$[^$]+\$", " ", content)` (line 57)

`[^$]` matches any character other than `$`, including newlines. -/

def sdAux : Nat → List Char → List Char
  | _ + 1, [] => []
  | n + 1, _ :: rest => sdAux n rest
  | 0, [] => []
  | 0, c :: rest =>
    if c = '$' then
      match splitAtFirst '$' rest with
      | some (body, _) =>
        if body.isEmpty then c :: sdAux 0 rest
        else ' ' :: sdAux (body.length + 1) rest
      | none => c :: sdAux 0 rest
    else c :: sdAux 0 rest

def stripDollar (l : List Char) : List Char := sdAux 0 l

/-! ## Stage 5 — `re.sub(r"\\\[.*?\\\]", " ", content, flags=re.DOTALL)` (line 58) -/

/-- Split at the first occurrence of the two-character sequence `a b`. -/
def splitAtPair (a b : Char) : List Char → Option (List Char × List Char)
  | [] => none
  | [_] => none
  | c :: d :: rest =>
    if c = a ∧ d = b then some ([], rest)
    else
      match splitAtPair a b (d :: rest) with
      | some (x, y) => some (c :: x, y)
      | none => none

def sdispAux : Nat → List Char → List Char
  | _ + 1, [] => []
  | n + 1, _ :: rest => sdispAux n rest
  | 0, [] => []
  | 0, c :: rest =>
    if c = '\\' then
      match rest with
      | d :: rest2 =>
        if d = '[' then
          match splitAtPair '\\' ']' rest2 with
          | some (_, rest') => ' ' :: sdispAux (rest.length - rest'.length) rest
          | none => c :: sdispAux 0 rest
        else c :: sdispAux 0 rest
      | [] => [c]
    else c :: sdispAux 0 rest

def stripDisplay (l : List Char) : List Char := sdispAux 0 l

/-! ## Stage 6 — the environment regex (line 59)

`re.sub(r"\\begin\{(equation|align|math|displaymath)\*?\}.*?\\end\{\1\*?\}", " ", content, flags=re.DOTALL)` -/

/-- After `begin\x7b`: one environment name, an optional `*`, then `\x7d`. -/
def matchBeginName (name l : List Char) : Option (List Char) :=
  match dropPrefixQ name l with
  | some (c :: t) =>
    if c = '*' then
      match t with
      | c2 :: t2 => if c2 = '}' then some t2 else none
      | [] => none
    else if c = '}' then some t else none
  | _ => none

/-- The begin-marker after a backslash, with the alternation
`equation|align|math|displaymath` tried left to right.  Returns the matched
environment name (the backreference `\1`) and the suffix after the
marker. -/
def matchBeginEnv (l : List Char) : Option (List Char × List Char) :=
  match dropPrefixQ "begin\x7b".toList l with
  | some r =>
    match matchBeginName "equation".toList r with
    | some rest => some ("equation".toList, rest)
    | none =>
      match matchBeginName "align".toList r with
      | some rest => some ("align".toList, rest)
      | none =>
        match matchBeginName "math".toList r with
        | some rest => some ("math".toList, rest)
        | none =>
          match matchBeginName "displaymath".toList r with
          | some rest => some ("displaymath".toList, rest)
          | none => none
  | none => none

/-- The end-marker `\end\x7b` name `\*?\x7d` at the current position. -/
def matchEndAt (name l : List Char) : Option (List Char) :=
  match dropPrefixQ (('\\' :: "end\x7b".toList) ++ name) l with
  | some (c :: t) =>
    if c = '*' then
      match t with
      | c2 :: t2 => if c2 = '}' then some t2 else none
      | [] => none
    else if c = '}' then some t else none
  | _ => none

/-- Non-greedy `.*?` before the end-marker: scan for the first position
where the end-marker matches; return the suffix after it. -/
def findEnd (name : List Char) : List Char → Option (List Char)
  | [] => none
  | c :: rest =>
    match matchEndAt name (c :: rest) with
    | some r => some r
    | none => findEnd name rest

def senvAux : Nat → List Char → List Char
  | _ + 1, [] => []
  | n + 1, _ :: rest => senvAux n rest
  | 0, [] => []
  | 0, c :: rest =>
    if c = '\\' then
      match matchBeginEnv rest with
      | some (name, afterBegin) =>
        match findEnd name afterBegin with
        | some rest' => ' ' :: senvAux (rest.length - rest'.length) rest
        | none => c :: senvAux 0 rest
      | none => c :: senvAux 0 rest
    else c :: senvAux 0 rest

def stripEnv (l : List Char) : List Char := senvAux 0 l

/-! ## Stage 7 — `re.sub(r"[{}]", " ", content)` (line 62) -/

def stripBraces (l : List Char) : List Char :=
  l.map fun c => if c = '{' ∨ c = '}' then ' ' else c

/-! ## Stage 8 — `len([w for w in content.split() if w])` (lines 65-67) -/

/-- Count maximal runs of non-whitespace characters.  The flag records
whether the scanner is inside a token. -/
def countTokensAux : Bool → List Char → Nat
  | _, [] => 0
  | inTok, c :: rest =>
    if isSpaceChar c then countTokensAux false rest
    else (if inTok then 0 else 1) + countTokensAux true rest

def countTokens (l : List Char) : Nat := countTokensAux false l

/-- `count_words_in_tex_content` (source lines 44-67): the eight stages in
source order. -/
def count_words_in_tex_content (content : String) : Nat :=
  countTokens (stripBraces (stripEnv (stripDisplay (stripDollar
    (stripCmd (stripEmph (stripComments content.toList)))))))

/-!
## The daily series and its update (tex_word_counter.py, main, lines 167-185)
-/

/-- One record of `history["daily_counts"]`. -/
structure DailyCount where
  date : String
  words : Int
deriving DecidableEq

/-- Lexicographic comparison of character lists, as Python compares
strings with `<`. -/
def lexLt : List Char → List Char → Bool
  | [], [] => false
  | [], _ :: _ => true
  | _ :: _, [] => false
  | a :: as, b :: bs => if a < b then true else if b < a then false else lexLt as bs

def strLtB (a b : String) : Bool := lexLt a.toList b.toList

/-- Lines 172-180: walk the list; the first entry whose date equals
`today` has its `words` field overwritten and the walk stops; if no entry
matches, a new record is appended at the end. -/
def upsertToday : List DailyCount → String → Int → List DailyCount
  | [], d, w => [⟨d, w⟩]
  | e :: rest, d, w =>
    if e.date = d then ⟨e.date, w⟩ :: rest else e :: upsertToday rest d w

/-- Stable insertion: `e` goes after every element whose date is not
greater, which is how a stable sort orders equal keys. -/
def insertSorted : List DailyCount → DailyCount → List DailyCount
  | [], e => [e]
  | f :: rest, e =>
    if strLtB e.date f.date then e :: f :: rest else f :: insertSorted rest e

/-- `sorted(daily_counts, key=lambda x: x["date"])` (line 183): Python's
sort is stable; a left fold of stable insertion computes the same list. -/
def sortByDate (l : List DailyCount) : List DailyCount :=
  l.foldl (fun acc e => insertSorted acc e) []

/-- `[-30:]` (line 183): keep the last 30 elements. -/
def trimHistory (l : List DailyCount) : List DailyCount :=
  l.drop (l.length - 30)

/-- The whole update step of lines 172-183: upsert today's record, sort by
date, keep the last 30. -/
def updateHistory (l : List DailyCount) (today : String) (words : Int) : List DailyCount :=
  trimHistory (sortByDate (upsertToday l today words))

/-!
## The chart renderer (generate_progress_chart.py)

Python floats are embedded as exact rationals.  `datetime.now(timezone.utc)`
(line 97) is reified as the explicit `today` parameter.
-/

/-- Day-over-day delta (lines 48-55). -/
structure DeltaRec where
  date : String
  change : Int
  total : Int
deriving DecidableEq

def computeChangesGo : DailyCount → List DailyCount → List DeltaRec
  | _, [] => []
  | prev, e :: rest =>
    ⟨e.date, e.words - prev.words, e.words⟩ :: computeChangesGo e rest

/-- Lines 48-55: first record's change is 0, every later record's change is
its total minus the previous record's total. -/
def computeChanges : List DailyCount → List DeltaRec
  | [] => []
  | e :: rest => ⟨e.date, 0, e.words⟩ :: computeChangesGo e rest

/-- `max(abs(c["change"]) for c in changes) if changes else 1` (line 58). -/
def rawMaxChange : List DeltaRec → Int
  | [] => 1
  | c :: rest => rest.foldl (fun a d => max a (d.change.natAbs : Int)) (c.change.natAbs : Int)

/-- Lines 58-60, including the degenerate-case guard `if max_change == 0:
max_change = 1`. -/
def maxChangeOf (changes : List DeltaRec) : Int :=
  let m := rawMaxChange changes
  if m = 0 then 1 else m

/-- Chart dimensions (lines 41-45), Python ints. -/
def widthC : Int := 500
def heightC : Int := 200
def paddingC : Int := 40
def chartWidthC : Int := widthC - 2 * paddingC
def chartHeightC : Int := heightC - 2 * paddingC - 30

/-- A Python float value of the renderer, embedded as an exact fraction
`num / den` with positive denominator.  The geometry of the chart only
adds, subtracts, multiplies, divides and compares such values, and every
value that reaches the output is formatted to one decimal digit, so exact
fractions model the computation; fractions are not reduced, which keeps
every operation structural and kernel evaluable. -/
structure Frac where
  num : Int
  den : Int
deriving DecidableEq

def Frac.ofInt (n : Int) : Frac := ⟨n, 1⟩

def Frac.add (a b : Frac) : Frac := ⟨a.num * b.den + b.num * a.den, a.den * b.den⟩

def Frac.sub (a b : Frac) : Frac := ⟨a.num * b.den - b.num * a.den, a.den * b.den⟩

def Frac.mul (a b : Frac) : Frac := ⟨a.num * b.num, a.den * b.den⟩

/-- Division, keeping the denominator positive (every divisor in the
renderer is positive). -/
def Frac.div (a b : Frac) : Frac :=
  if b.num < 0 then ⟨-(a.num * b.den), a.den * (-b.num)⟩ else ⟨a.num * b.den, a.den * b.num⟩

/-- `a ≤ b`, valid because denominators are positive. -/
def Frac.le (a b : Frac) : Bool := decide (a.num * b.den ≤ b.num * a.den)

/-- Python's binary `max` (the larger value; on ties the values agree). -/
def Frac.maxF (a b : Frac) : Frac := if Frac.le a b then b else a

/-- Python's binary `min`. -/
def Frac.minF (a b : Frac) : Frac := if Frac.le a b then a else b

/-- Round half to even, the rounding of Python's float formatting. -/
def roundHalfEven (q : Frac) : Int :=
  let fl : Int := q.num.fdiv q.den
  let rem2 : Int := 2 * (q.num - fl * q.den)
  if rem2 < q.den then fl
  else if q.den < rem2 then fl + 1
  else if fl % 2 = 0 then fl else fl + 1

/-- Python's `:.1f` formatting, as exact decimal rounding of the value to
one fractional digit. -/
def fmt1 (q : Frac) : String :=
  let n := roundHalfEven (Frac.mul q (Frac.ofInt 10))
  (if n < 0 then "-" else "") ++ toString (n.natAbs / 10) ++ "." ++ toString (n.natAbs % 10)

/-- Python's `str` of a float, for the values interpolated without a format
spec (`zero_y` on line 94 is always integral). -/
def fmtFloatRepr (q : Frac) : String :=
  if q.num % q.den = 0 then toString (q.num / q.den) ++ ".0" else fmt1 q

/-- Python's `:+d`: a sign is always printed. -/
def fmtSigned (i : Int) : String :=
  if i < 0 then toString i else "+" ++ toString i

/-- Insert a comma after every third digit of a reversed digit list. -/
def group3 : List Char → List Char
  | a :: b :: c :: d :: rest => a :: b :: c :: ',' :: group3 (d :: rest)
  | l => l

/-- Python's `:,` thousands-grouped decimal formatting. -/
def fmtComma (i : Int) : String :=
  (if i < 0 then "-" else "") ++
    String.mk (group3 (toString i.natAbs).toList.reverse).reverse

/-- `bar_width = min(20, (chart_width - 10) / max(num_bars, 1))` (line 67);
the Python division is float division. -/
def barWidthOf (numBars : Nat) : Frac :=
  Frac.minF (Frac.ofInt 20)
    (Frac.div (Frac.ofInt (chartWidthC - 10)) (Frac.ofInt (max numBars 1 : Nat)))

/-- `chart_height / 2 - 10`, the per-direction plotting half-height of
lines 78 and 83. -/
def halfPlotH : Frac := Frac.sub (Frac.div (Frac.ofInt chartHeightC) (Frac.ofInt 2)) (Frac.ofInt 10)

/-- Bar height before the 1-unit floor (lines 78 and 83). -/
def barHeightQ (maxc change : Int) : Frac :=
  if 0 ≤ change then
    if 0 < maxc then Frac.mul (Frac.div (Frac.ofInt change) (Frac.ofInt maxc)) halfPlotH
    else Frac.ofInt 0
  else
    if 0 < maxc then
      Frac.mul (Frac.div (Frac.ofInt (change.natAbs : Int)) (Frac.ofInt maxc)) halfPlotH
    else Frac.ofInt 0

/-- `padding + 30 + chart_height / 2`, the baseline of lines 79, 84
and 93. -/
def baselineY : Frac :=
  Frac.add (Frac.add (Frac.ofInt paddingC) (Frac.ofInt 30))
    (Frac.div (Frac.ofInt chartHeightC) (Frac.ofInt 2))

/-- Bar top edge (lines 79 and 84). -/
def barYQ (maxc change : Int) : Frac :=
  if 0 ≤ change then Frac.sub baselineY (barHeightQ maxc change) else baselineY

/-- One `<rect>` of the bars loop (lines 72-90), including the
`max(bar_height, 1)` floor and the tooltip. -/
def barRect (maxc : Int) (bw : Frac) (i : Nat) (d : DeltaRec) : String :=
  "<rect x=\"" ++
    fmt1 (Frac.add (Frac.ofInt paddingC) (Frac.mul (Frac.ofInt i) (Frac.add bw (Frac.ofInt 2)))) ++
    "\" y=\"" ++ fmt1 (barYQ maxc d.change) ++
    "\" width=\"" ++ fmt1 bw ++
    "\" height=\"" ++ fmt1 (Frac.maxF (barHeightQ maxc d.change) (Frac.ofInt 1)) ++
    "\" fill=\"" ++ (if 0 ≤ d.change then "#2ea44f" else "#cf222e") ++
    "\" rx=\"2\"><title>" ++ d.date ++ ": " ++ fmtSigned d.change ++
    " words (total: " ++ toString d.total ++ ")</title></rect>"

/-- The bars in series order, numbered from `i`. -/
def barsSvg (maxc : Int) (bw : Frac) : Nat → List DeltaRec → List String
  | _, [] => []
  | i, d :: rest => barRect maxc bw i d :: barsSvg maxc bw (i + 1) rest

def zeroY : Frac := baselineY

/-- Line 94. -/
def zeroLine : String :=
  "<line x1=\"" ++ toString paddingC ++ "\" y1=\"" ++ fmtFloatRepr zeroY ++
    "\" x2=\"" ++ toString (widthC - paddingC) ++ "\" y2=\"" ++ fmtFloatRepr zeroY ++
    "\" stroke=\"#d0d7de\" stroke-width=\"1\"/>"

/-- `generate_chart_svg` (lines 38-134).  `today` stands for
`datetime.now(timezone.utc).strftime("%Y-%m-%d")` read on line 97. -/
def generate_chart_svg (daily_counts : List DailyCount) (today : String) : String :=
  let changes := computeChanges daily_counts
  let maxc := maxChangeOf changes
  let latestTotal : Int := match daily_counts.getLast? with
    | some e => e.words
    | none => 0
  let todayChange : Int := match changes.getLast? with
    | some c => c.change
    | none => 0
  let bw := barWidthOf changes.length
  let changeText : String :=
    if 0 < todayChange then "+" ++ toString todayChange ++ " words today! 📈"
    else if todayChange < 0 then toString todayChange ++ " words today 📉"
    else "No change today"
  let changeColor : String :=
    if 0 < todayChange then "#2ea44f"
    else if todayChange < 0 then "#cf222e"
    else "#57606a"
  "<svg xmlns=\"http://www.w3.org/2000/svg\" width=\"" ++ toString widthC ++
    "\" height=\"" ++ toString heightC ++ "\" viewBox=\"0 0 " ++ toString widthC ++
    " " ++ toString heightC ++ "\">\n  <style>\n    .title \x7b font: bold 14px sans-serif; fill: #24292f; \x7d\n    .subtitle \x7b font: 12px sans-serif; fill: #57606a; \x7d\n    .total \x7b font: bold 18px sans-serif; fill: #24292f; \x7d\n    .change \x7b font: bold 12px sans-serif; fill: " ++
    changeColor ++ "; \x7d\n    .label \x7b font: 10px sans-serif; fill: #57606a; \x7d\n  </style>\n  <rect width=\"" ++
    toString widthC ++ "\" height=\"" ++ toString heightC ++
    "\" fill=\"#ffffff\" rx=\"6\" stroke=\"#d0d7de\"/>\n\n  <!-- Title -->\n  <text x=\"" ++
    toString paddingC ++ "\" y=\"25\" class=\"title\">📝 LaTeX Writing Progress</text>\n\n  <!-- Stats -->\n  <text x=\"" ++
    toString (widthC - paddingC) ++ "\" y=\"20\" class=\"total\" text-anchor=\"end\">" ++
    fmtComma latestTotal ++ " words</text>\n  <text x=\"" ++
    toString (widthC - paddingC) ++ "\" y=\"35\" class=\"change\" text-anchor=\"end\">" ++
    changeText ++ "</text>\n\n  <!-- Chart area -->\n  " ++ zeroLine ++ "\n  " ++
    String.join (barsSvg maxc bw 0 changes) ++
    "\n\n  <!-- Labels -->\n  <text x=\"" ++ toString paddingC ++ "\" y=\"" ++
    toString (heightC - 10) ++ "\" class=\"label\">Last " ++
    toString daily_counts.length ++ " days</text>\n  <text x=\"" ++
    toString (widthC - paddingC) ++ "\" y=\"" ++ toString (heightC - 10) ++
    "\" class=\"label\" text-anchor=\"end\">Updated: " ++ today ++ "</text>\n</svg>"

/-- `generate_empty_svg` (lines 25-35), a constant. -/
def generate_empty_svg : String :=
  "<svg xmlns=\"http://www.w3.org/2000/svg\" width=\"400\" height=\"120\" viewBox=\"0 0 400 120\">\n  <style>\n    .title \x7b font: bold 14px sans-serif; fill: #24292f; \x7d\n    .subtitle \x7b font: 12px sans-serif; fill: #57606a; \x7d\n  </style>\n  <rect width=\"400\" height=\"120\" fill=\"#f6f8fa\" rx=\"6\"/>\n  <text x=\"200\" y=\"50\" class=\"title\" text-anchor=\"middle\">📝 LaTeX Writing Progress</text>\n  <text x=\"200\" y=\"75\" class=\"subtitle\" text-anchor=\"middle\">No data yet. Start writing!</text>\n</svg>"

/-- The content `generate_progress_svg` (lines 11-22) writes: the empty
placeholder for an empty series, the chart otherwise. -/
def generate_progress_svg (daily_counts : List DailyCount) (today : String) : String :=
  if daily_counts.isEmpty then generate_empty_svg
  else generate_chart_svg daily_counts today

/-- Boolean prefix test on character lists. -/
def isPrefixB : List Char → List Char → Bool
  | [], _ => true
  | _ :: _, [] => false
  | a :: as, b :: bs => a == b && isPrefixB as bs

/-- Boolean substring test on character lists. -/
def containsSub (pat : List Char) : List Char → Bool
  | [] => pat.isEmpty
  | c :: rest => isPrefixB pat (c :: rest) || containsSub pat rest

/-!
## Lemmas about the scanning primitives
-/

theorem splitAtFirst_of_not_mem {t : Char} : ∀ {l : List Char}, t ∉ l → splitAtFirst t l = none
  | [], _ => rfl
  | c :: rest, h => by
    have hc : ¬ c = t := fun e => h (e ▸ List.mem_cons_self c rest)
    have hr : t ∉ rest := fun hx => h (List.mem_cons_of_mem c hx)
    simp [splitAtFirst, hc, splitAtFirst_of_not_mem hr]

theorem splitAtFirst_append {t : Char} : ∀ {a : List Char}, t ∉ a → ∀ (b : List Char),
    splitAtFirst t (a ++ t :: b) = some (a, b)
  | [], _, b => by simp [splitAtFirst]
  | c :: a, h, b => by
    have hc : ¬ c = t := fun e => h (e ▸ List.mem_cons_self c a)
    have ha : t ∉ a := fun hx => h (List.mem_cons_of_mem c hx)
    simp [splitAtFirst, hc, splitAtFirst_append ha b]

theorem splitAtFirst_eq_some {t : Char} : ∀ {l a b : List Char},
    splitAtFirst t l = some (a, b) → l = a ++ t :: b
  | [], _, _, h => by simp [splitAtFirst] at h
  | c :: rest, a, b, h => by
    by_cases hc : c = t
    · simp [splitAtFirst, hc] at h
      obtain ⟨rfl, rfl⟩ := h
      simp [hc]
    · simp only [splitAtFirst, if_neg hc] at h
      cases hsp : splitAtFirst t rest with
      | none => rw [hsp] at h; simp at h
      | some p =>
        rw [hsp] at h
        simp at h
        have := splitAtFirst_eq_some (l := rest) (a := p.1) (b := p.2) (by rw [hsp])
        rw [← h.1, ← h.2, this]
        simp

theorem dropPrefixQ_append : ∀ (p r : List Char), dropPrefixQ p (p ++ r) = some r
  | [], _ => rfl
  | c :: p, r => by simp [dropPrefixQ, dropPrefixQ_append p r]

theorem dropPrefixQ_eq_some : ∀ {p l r : List Char}, dropPrefixQ p l = some r → l = p ++ r
  | [], l, r, h => by
    simp [dropPrefixQ] at h
    simpa using h
  | _ :: _, [], _, h => by simp [dropPrefixQ] at h
  | p :: ps, c :: cs, r, h => by
    by_cases hc : c = p
    · simp only [dropPrefixQ, if_pos hc] at h
      rw [hc, dropPrefixQ_eq_some h]
      rfl
    · simp [dropPrefixQ, hc] at h

/-! Skip-mode lemmas: running a scanner in skip mode over a prefix of the
given length resumes normal scanning right after it. -/

theorem seAux_skip : ∀ (a r : List Char), seAux a.length (a ++ r) = seAux 0 r
  | [], _ => rfl
  | _ :: a, r => seAux_skip a r

theorem scAux_skip : ∀ (a r : List Char), scAux a.length (a ++ r) = scAux 0 r
  | [], _ => rfl
  | _ :: a, r => scAux_skip a r

theorem sdAux_skip : ∀ (a r : List Char), sdAux a.length (a ++ r) = sdAux 0 r
  | [], _ => rfl
  | _ :: a, r => sdAux_skip a r

theorem sdispAux_skip : ∀ (a r : List Char), sdispAux a.length (a ++ r) = sdispAux 0 r
  | [], _ => rfl
  | _ :: a, r => sdispAux_skip a r

theorem senvAux_skip : ∀ (a r : List Char), senvAux a.length (a ++ r) = senvAux 0 r
  | [], _ => rfl
  | _ :: a, r => senvAux_skip a r

/-! Single-step lemmas in normal mode on a non-trigger character. -/

theorem seAux_cons_ne {c : Char} (h : c ≠ '\\') (rest : List Char) :
    seAux 0 (c :: rest) = c :: seAux 0 rest := by
  simp [seAux, h]

theorem scAux_cons_ne {c : Char} (h : c ≠ '\\') (rest : List Char) :
    scAux 0 (c :: rest) = c :: scAux 0 rest := by
  simp [scAux, h]

theorem sdAux_cons_ne {c : Char} (h : c ≠ '$') (rest : List Char) :
    sdAux 0 (c :: rest) = c :: sdAux 0 rest := by
  simp [sdAux, h]

theorem sdispAux_cons_ne {c : Char} (h : c ≠ '\\') (rest : List Char) :
    sdispAux 0 (c :: rest) = c :: sdispAux 0 rest := by
  simp [sdispAux, h]

theorem senvAux_cons_ne {c : Char} (h : c ≠ '\\') (rest : List Char) :
    senvAux 0 (c :: rest) = c :: senvAux 0 rest := by
  simp [senvAux, h]

/-! Identity lemmas: a scanner whose trigger character does not occur
leaves the text unchanged. -/

theorem stripEmph_of_no_bslash : ∀ {l : List Char}, '\\' ∉ l → stripEmph l = l
  | [], _ => rfl
  | c :: rest, h => by
    have hc : c ≠ '\\' := fun e => h (e ▸ List.mem_cons_self c rest)
    have hr : '\\' ∉ rest := fun hx => h (List.mem_cons_of_mem c hx)
    show seAux 0 (c :: rest) = c :: rest
    rw [seAux_cons_ne hc]
    exact congrArg (c :: ·) (stripEmph_of_no_bslash hr)

theorem stripCmd_of_no_bslash : ∀ {l : List Char}, '\\' ∉ l → stripCmd l = l
  | [], _ => rfl
  | c :: rest, h => by
    have hc : c ≠ '\\' := fun e => h (e ▸ List.mem_cons_self c rest)
    have hr : '\\' ∉ rest := fun hx => h (List.mem_cons_of_mem c hx)
    show scAux 0 (c :: rest) = c :: rest
    rw [scAux_cons_ne hc]
    exact congrArg (c :: ·) (stripCmd_of_no_bslash hr)

theorem stripDollar_of_no_dollar : ∀ {l : List Char}, '$' ∉ l → stripDollar l = l
  | [], _ => rfl
  | c :: rest, h => by
    have hc : c ≠ '$' := fun e => h (e ▸ List.mem_cons_self c rest)
    have hr : '$' ∉ rest := fun hx => h (List.mem_cons_of_mem c hx)
    show sdAux 0 (c :: rest) = c :: rest
    rw [sdAux_cons_ne hc]
    exact congrArg (c :: ·) (stripDollar_of_no_dollar hr)

theorem stripDisplay_of_no_bslash : ∀ {l : List Char}, '\\' ∉ l → stripDisplay l = l
  | [], _ => rfl
  | c :: rest, h => by
    have hc : c ≠ '\\' := fun e => h (e ▸ List.mem_cons_self c rest)
    have hr : '\\' ∉ rest := fun hx => h (List.mem_cons_of_mem c hx)
    show sdispAux 0 (c :: rest) = c :: rest
    rw [sdispAux_cons_ne hc]
    exact congrArg (c :: ·) (stripDisplay_of_no_bslash hr)

theorem stripEnv_of_no_bslash : ∀ {l : List Char}, '\\' ∉ l → stripEnv l = l
  | [], _ => rfl
  | c :: rest, h => by
    have hc : c ≠ '\\' := fun e => h (e ▸ List.mem_cons_self c rest)
    have hr : '\\' ∉ rest := fun hx => h (List.mem_cons_of_mem c hx)
    show senvAux 0 (c :: rest) = c :: rest
    rw [senvAux_cons_ne hc]
    exact congrArg (c :: ·) (stripEnv_of_no_bslash hr)

theorem stripBraces_of_no_brace : ∀ {l : List Char}, '{' ∉ l → '}' ∉ l → stripBraces l = l
  | [], _, _ => rfl
  | c :: rest, h1, h2 => by
    have hc : ¬ (c = '{' ∨ c = '}') := by
      rintro (e | e)
      · exact h1 (e ▸ List.mem_cons_self c rest)
      · exact h2 (e ▸ List.mem_cons_self c rest)
    have t1 : '{' ∉ rest := fun hx => h1 (List.mem_cons_of_mem c hx)
    have t2 : '}' ∉ rest := fun hx => h2 (List.mem_cons_of_mem c hx)
    show (c :: rest).map _ = c :: rest
    rw [List.map_cons, if_neg hc]
    exact congrArg (c :: ·) (stripBraces_of_no_brace t1 t2)

theorem stripCommentsAux_false_of_no_percent : ∀ {l : List Char}, '%' ∉ l →
    stripCommentsAux false l = l
  | [], _ => rfl
  | c :: rest, h => by
    have hc : ¬ c = '%' := fun e => h (e ▸ List.mem_cons_self c rest)
    have hr : '%' ∉ rest := fun hx => h (List.mem_cons_of_mem c hx)
    simp [stripCommentsAux, hc, stripCommentsAux_false_of_no_percent hr]

theorem commentEndState_false_of_no_percent : ∀ {l : List Char}, '%' ∉ l →
    commentEndState false l = false
  | [], _ => rfl
  | c :: rest, h => by
    have hc : ¬ c = '%' := fun e => h (e ▸ List.mem_cons_self c rest)
    have hr : '%' ∉ rest := fun hx => h (List.mem_cons_of_mem c hx)
    simp [commentEndState, hc, commentEndState_false_of_no_percent hr]

/-- The comment stripper is a transducer: output for `l ++ m` is the output
for `l` followed by the output for `m` started in the state `l` ends in. -/
theorem stripCommentsAux_append : ∀ (b : Bool) (l m : List Char),
    stripCommentsAux b (l ++ m) = stripCommentsAux b l ++ stripCommentsAux (commentEndState b l) m
  | b, [], m => by cases b <;> rfl
  | false, c :: l, m => by
    by_cases hc : c = '%'
    · simp [stripCommentsAux, commentEndState, hc, stripCommentsAux_append true l m]
    · simp [stripCommentsAux, commentEndState, hc, stripCommentsAux_append false l m]
  | true, c :: l, m => by
    by_cases hc : c = '\n'
    · simp [stripCommentsAux, commentEndState, hc, stripCommentsAux_append false l m]
    · simp [stripCommentsAux, commentEndState, hc, stripCommentsAux_append true l m]

/-- Every character the comment stripper emits comes from its input. -/
theorem mem_of_mem_stripCommentsAux : ∀ {b : Bool} {l : List Char} {x : Char},
    x ∈ stripCommentsAux b l → x ∈ l
  | _, [], _, h => by simp [stripCommentsAux] at h
  | false, c :: rest, x, h => by
    by_cases hc : c = '%'
    · simp only [stripCommentsAux, if_pos hc] at h
      exact List.mem_cons_of_mem c (mem_of_mem_stripCommentsAux h)
    · simp only [stripCommentsAux, if_neg hc] at h
      rcases List.mem_cons.1 h with e | hm
      · exact e ▸ List.mem_cons_self c rest
      · exact List.mem_cons_of_mem c (mem_of_mem_stripCommentsAux hm)
  | true, c :: rest, x, h => by
    by_cases hc : c = '\n'
    · simp only [stripCommentsAux, if_pos hc] at h
      rcases List.mem_cons.1 h with e | hm
      · rw [hc]; exact e ▸ List.mem_cons_self '\n' rest
      · exact List.mem_cons_of_mem c (mem_of_mem_stripCommentsAux hm)
    · simp only [stripCommentsAux, if_neg hc] at h
      exact List.mem_cons_of_mem c (mem_of_mem_stripCommentsAux h)

/-- In comment mode, a line with no newline is dropped entirely. -/
theorem stripCommentsAux_true_of_no_newline : ∀ {l : List Char}, '\n' ∉ l →
    stripCommentsAux true l = []
  | [], _ => rfl
  | c :: rest, h => by
    have hc : ¬ c = '\n' := fun e => h (e ▸ List.mem_cons_self c rest)
    have hr : '\n' ∉ rest := fun hx => h (List.mem_cons_of_mem c hx)
    simp [stripCommentsAux, hc, stripCommentsAux_true_of_no_newline hr]

/-! Decomposition and suffix lemmas for the match helpers. -/

theorem optStar_suffix : ∀ (l : List Char), optStar l <:+ l
  | [] => List.suffix_rfl
  | c :: t => by
    by_cases hc : c = '*'
    · simp [optStar, hc]
    · simp [optStar, hc]

theorem optGroup_suffix (op cl : Char) : ∀ (l : List Char), optGroup op cl l <:+ l
  | [] => List.suffix_rfl
  | c :: t => by
    by_cases hc : c = op
    · cases hsp : splitAtFirst cl t with
      | none => simp [optGroup, hc, hsp]
      | some p =>
        have hdec := splitAtFirst_eq_some (t := cl) (l := t) (a := p.1) (b := p.2)
          (by rw [hsp])
        simp only [optGroup, if_pos hc, hsp]
        refine ⟨c :: (p.1 ++ [cl]), ?_⟩
        rw [hdec]
        simp
    · simp [optGroup, hc]

theorem matchCmd_suffix {l rest' : List Char} (h : matchCmd l = some rest') : rest' <:+ l := by
  unfold matchCmd at h
  by_cases hl : (l.takeWhile isAlphaChar).isEmpty
  · simp [hl] at h
  · rw [if_neg hl] at h
    injection h with h
    rw [← h]
    calc optGroup '{' '}' (optGroup '[' ']' (optStar (l.dropWhile isAlphaChar)))
        <:+ optGroup '[' ']' (optStar (l.dropWhile isAlphaChar)) := optGroup_suffix _ _ _
      _ <:+ optStar (l.dropWhile isAlphaChar) := optGroup_suffix _ _ _
      _ <:+ l.dropWhile isAlphaChar := optStar_suffix _
      _ <:+ l := List.dropWhile_suffix _

theorem matchEmphName_decomp {name l content rest' : List Char}
    (h : matchEmphName name l = some (content, rest')) :
    l = name ++ '{' :: (content ++ '}' :: rest') := by
  unfold matchEmphName at h
  cases hdp : dropPrefixQ name l with
  | none => rw [hdp] at h; simp at h
  | some r =>
    rw [hdp] at h
    cases r with
    | nil => simp at h
    | cons c rest =>
      by_cases hc : c = '{'
      · simp only [if_pos hc] at h
        rw [dropPrefixQ_eq_some hdp, hc, splitAtFirst_eq_some h]
      · simp [hc] at h

theorem matchEmph_suffix {l content rest' : List Char}
    (h : matchEmph l = some (content, rest')) : ∃ pre, l = pre ++ rest' := by
  unfold matchEmph at h
  have step : ∀ name : List Char, matchEmphName name l = some (content, rest') →
      ∃ pre, l = pre ++ rest' := by
    intro name hn
    refine ⟨name ++ '{' :: content ++ ['}'], ?_⟩
    rw [matchEmphName_decomp hn]
    simp
  cases h1 : matchEmphName "textbf".toList l with
  | some r => rw [h1] at h; simp at h; exact step _ (by rw [h1, h])
  | none =>
    rw [h1] at h
    cases h2 : matchEmphName "textit".toList l with
    | some r => rw [h2] at h; simp at h; exact step _ (by rw [h2, h])
    | none =>
      rw [h2] at h
      cases h3 : matchEmphName "emph".toList l with
      | some r => rw [h3] at h; simp at h; exact step _ (by rw [h3, h])
      | none =>
        rw [h3] at h
        exact step _ h

/-! Step lemmas: what a scanner does at a backslash or dollar that starts a
match. -/

theorem seAux_cons_match {rest content rest' : List Char}
    (h : matchEmph rest = some (content, rest')) :
    seAux 0 ('\\' :: rest) = content ++ seAux 0 rest' := by
  obtain ⟨pre, hpre⟩ := matchEmph_suffix h
  have hlen : rest.length - rest'.length = pre.length := by rw [hpre]; simp
  have : seAux 0 ('\\' :: rest) = content ++ seAux (rest.length - rest'.length) rest := by
    simp [seAux, h]
  rw [this, hlen, hpre, seAux_skip]

theorem scAux_cons_match {rest rest' : List Char}
    (h : matchCmd rest = some rest') :
    scAux 0 ('\\' :: rest) = ' ' :: scAux 0 rest' := by
  obtain ⟨pre, hpre⟩ := matchCmd_suffix h
  have hpre' : rest = pre ++ rest' := hpre.symm
  have hlen : rest.length - rest'.length = pre.length := by rw [hpre']; simp
  have : scAux 0 ('\\' :: rest) = ' ' :: scAux (rest.length - rest'.length) rest := by
    simp [scAux, h]
  rw [this, hlen, hpre', scAux_skip]

theorem sdAux_match {m : List Char} (h1 : '$' ∉ m) (h2 : m ≠ []) (rest : List Char) :
    sdAux 0 ('$' :: (m ++ '$' :: rest)) = ' ' :: sdAux 0 rest := by
  have hsp : splitAtFirst '$' (m ++ '$' :: rest) = some (m, rest) := splitAtFirst_append h1 rest
  have hm : m.isEmpty = false := by cases m with
    | nil => exact absurd rfl h2
    | cons a t => rfl
  have step : sdAux 0 ('$' :: (m ++ '$' :: rest)) =
      ' ' :: sdAux (m.length + 1) (m ++ '$' :: rest) := by
    simp [sdAux, hsp, hm]
  rw [step, show m ++ '$' :: rest = (m ++ ['$']) ++ rest by simp,
    show m.length + 1 = (m ++ ['$']).length by simp, sdAux_skip]

/-! Wrap lemmas: how the emphasis and command matchers behave on a
backslash command wrapped around brace-free text. -/

theorem takeWhile_append_stop {p : Char → Bool} : ∀ {a : List Char},
    (∀ x ∈ a, p x = true) → ∀ {c : Char}, p c = false → ∀ (rest : List Char),
    (a ++ c :: rest).takeWhile p = a
  | [], _, c, hc, rest => by simp [List.takeWhile, hc]
  | x :: a, ha, c, hc, rest => by
    have hx : p x = true := ha x (List.mem_cons_self x a)
    have ha' : ∀ y ∈ a, p y = true := fun y hy => ha y (List.mem_cons_of_mem x hy)
    simp [List.takeWhile, hx, takeWhile_append_stop ha' hc rest]

theorem dropWhile_append_stop {p : Char → Bool} : ∀ {a : List Char},
    (∀ x ∈ a, p x = true) → ∀ {c : Char}, p c = false → ∀ (rest : List Char),
    (a ++ c :: rest).dropWhile p = c :: rest
  | [], _, c, hc, rest => by simp [List.dropWhile, hc]
  | x :: a, ha, c, hc, rest => by
    have hx : p x = true := ha x (List.mem_cons_self x a)
    have ha' : ∀ y ∈ a, p y = true := fun y hy => ha y (List.mem_cons_of_mem x hy)
    simp [List.dropWhile, hx, dropWhile_append_stop ha' hc rest]

theorem matchEmphName_wrap (name : List Char) {s : List Char} (h : '}' ∉ s) (r : List Char) :
    matchEmphName name (name ++ '{' :: (s ++ '}' :: r)) = some (s, r) := by
  unfold matchEmphName
  rw [dropPrefixQ_append]
  show (if ('{' : Char) = '{' then splitAtFirst '}' (s ++ '}' :: r) else none) = some (s, r)
  rw [if_pos rfl]
  exact splitAtFirst_append h r

theorem matchEmph_wrap_textbf {s : List Char} (h : '}' ∉ s) (r : List Char) :
    matchEmph ("textbf".toList ++ '{' :: (s ++ '}' :: r)) = some (s, r) := by
  unfold matchEmph
  rw [matchEmphName_wrap _ h r]

theorem matchEmph_wrap_textit {s : List Char} (h : '}' ∉ s) (r : List Char) :
    matchEmph ("textit".toList ++ '{' :: (s ++ '}' :: r)) = some (s, r) := by
  unfold matchEmph
  rw [show matchEmphName "textbf".toList ("textit".toList ++ '{' :: (s ++ '}' :: r)) = none
    from rfl, matchEmphName_wrap _ h r]

theorem matchEmph_wrap_emph {s : List Char} (h : '}' ∉ s) (r : List Char) :
    matchEmph ("emph".toList ++ '{' :: (s ++ '}' :: r)) = some (s, r) := by
  unfold matchEmph
  rw [show matchEmphName "textbf".toList ("emph".toList ++ '{' :: (s ++ '}' :: r)) = none
    from rfl,
    show matchEmphName "textit".toList ("emph".toList ++ '{' :: (s ++ '}' :: r)) = none
    from rfl, matchEmphName_wrap _ h r]

theorem matchEmph_wrap_underline {s : List Char} (h : '}' ∉ s) (r : List Char) :
    matchEmph ("underline".toList ++ '{' :: (s ++ '}' :: r)) = some (s, r) := by
  unfold matchEmph
  rw [show matchEmphName "textbf".toList ("underline".toList ++ '{' :: (s ++ '}' :: r)) = none
    from rfl,
    show matchEmphName "textit".toList ("underline".toList ++ '{' :: (s ++ '}' :: r)) = none
    from rfl,
    show matchEmphName "emph".toList ("underline".toList ++ '{' :: (s ++ '}' :: r)) = none
    from rfl, matchEmphName_wrap _ h r]

/-- A successful emphasis match implies a closing brace in the input. -/
theorem matchEmph_rbrace {l : List Char} {p : List Char × List Char}
    (h : matchEmph l = some p) : '}' ∈ l := by
  have step : ∀ name : List Char, matchEmphName name l = some (p.1, p.2) → '}' ∈ l := by
    intro name hn
    rw [matchEmphName_decomp hn]
    simp
  unfold matchEmph at h
  cases h1 : matchEmphName "textbf".toList l with
  | some r => rw [h1] at h; simp at h; exact step _ (by rw [h1, h])
  | none =>
    rw [h1] at h
    cases h2 : matchEmphName "textit".toList l with
    | some r => rw [h2] at h; simp at h; exact step _ (by rw [h2, h])
    | none =>
      rw [h2] at h
      cases h3 : matchEmphName "emph".toList l with
      | some r => rw [h3] at h; simp at h; exact step _ (by rw [h3, h])
      | none =>
        rw [h3] at h
        exact step _ h

/-- Stage 2 is the identity on text with no closing brace. -/
theorem stripEmph_of_no_rbrace : ∀ {l : List Char}, '}' ∉ l → stripEmph l = l
  | [], _ => rfl
  | c :: rest, h => by
    have hr : '}' ∉ rest := fun hx => h (List.mem_cons_of_mem c hx)
    by_cases hc : c = '\\'
    · cases hm : matchEmph rest with
      | some p => exact absurd (matchEmph_rbrace hm) hr
      | none =>
        show seAux 0 (c :: rest) = c :: rest
        simp only [seAux, if_pos hc, hm]
        rw [hc]
        exact congrArg ('\\' :: ·) (stripEmph_of_no_rbrace hr)
    · show seAux 0 (c :: rest) = c :: rest
      rw [seAux_cons_ne hc]
      exact congrArg (c :: ·) (stripEmph_of_no_rbrace hr)

theorem matchCmd_wrap {name s : List Char} (halpha : ∀ x ∈ name, isAlphaChar x = true)
    (hne : name ≠ []) (h : '}' ∉ s) :
    matchCmd (name ++ '{' :: s) = some ('{' :: s) := by
  have hbrace : isAlphaChar '{' = false := rfl
  have ht : (name ++ '{' :: s).takeWhile isAlphaChar = name :=
    takeWhile_append_stop halpha hbrace s
  have hd : (name ++ '{' :: s).dropWhile isAlphaChar = '{' :: s :=
    dropWhile_append_stop halpha hbrace s
  have hnemp : ¬ name.isEmpty = true := by
    cases name with
    | nil => exact absurd rfl hne
    | cons a t => simp [List.isEmpty]
  have e1 : optStar ('{' :: s) = '{' :: s := rfl
  have e2 : optGroup '[' ']' ('{' :: s) = '{' :: s := rfl
  have e3 : optGroup '{' '}' ('{' :: s) = '{' :: s := by
    show (if ('{' : Char) = '{' then
        match splitAtFirst '}' s with
        | some (_, t') => t'
        | none => '{' :: s
      else '{' :: s) = '{' :: s
    rw [if_pos rfl, splitAtFirst_of_not_mem h]
  unfold matchCmd
  rw [ht, hd, if_neg hnemp, e1, e2, e3]

theorem scAux_cmd_wrap {name s : List Char} (halpha : ∀ x ∈ name, isAlphaChar x = true)
    (hne : name ≠ []) (h : '}' ∉ s) :
    scAux 0 ('\\' :: (name ++ '{' :: s)) = ' ' :: '{' :: scAux 0 s := by
  rw [scAux_cons_match (matchCmd_wrap halpha hne h)]
  exact congrArg (' ' :: ·) (scAux_cons_ne (by decide) s)

/-- The facts the wrap argument needs about each recognized emphasis
command name. -/
theorem emphName_facts {c : String}
    (hc : c ∈ (["textbf", "textit", "emph", "underline"] : List String)) :
    '%' ∉ c.toList ∧ '}' ∉ c.toList ∧ (∀ x ∈ c.toList, isAlphaChar x = true) ∧
      c.toList ≠ [] ∧
      ∀ (s : List Char), '}' ∉ s → ∀ (r : List Char),
        matchEmph (c.toList ++ '{' :: (s ++ '}' :: r)) = some (s, r) := by
  simp only [List.mem_cons, List.not_mem_nil, or_false] at hc
  rcases hc with rfl | rfl | rfl | rfl
  · exact ⟨by decide, by decide, by decide, by decide,
      fun s hs r => matchEmph_wrap_textbf hs r⟩
  · exact ⟨by decide, by decide, by decide, by decide,
      fun s hs r => matchEmph_wrap_textit hs r⟩
  · exact ⟨by decide, by decide, by decide, by decide,
      fun s hs r => matchEmph_wrap_emph hs r⟩
  · exact ⟨by decide, by decide, by decide, by decide,
      fun s hs r => matchEmph_wrap_underline hs r⟩

/-- Unwrapping a recognized emphasis command around closing-brace-free text
does not change the word count.  Two cases: if the wrapped text leaves the
comment stripper outside a comment, the closing brace survives, stage 2
rewrites the whole command to its argument, and the remaining stages see
identical text; if it ends inside a comment, the closing brace is stripped
with the comment, stage 2 cannot fire, stage 3 deletes the bare command
name, and stage 7 turns the orphaned opening brace into whitespace. -/
theorem count_words_wrap_eq {c : String}
    (hc : c ∈ (["textbf", "textit", "emph", "underline"] : List String))
    (t : String) (ht : '}' ∉ t.toList) :
    count_words_in_tex_content ("\\" ++ c ++ "\x7b" ++ t ++ "\x7d") =
      count_words_in_tex_content t := by
  obtain ⟨hpct, hbrc, halpha, hne, hwrap⟩ := emphName_facts hc
  have hs_nb : '}' ∉ stripCommentsAux false t.toList :=
    fun hx => ht (mem_of_mem_stripCommentsAux hx)
  have hpfx : '%' ∉ ('\\' :: c.toList ++ ['{']) := by
    intro hx
    rcases List.mem_cons.1 hx with e | hx2
    · exact absurd e (by decide)
    · rcases List.mem_append.1 hx2 with hx3 | e2
      · exact hpct hx3
      · exact absurd (List.mem_singleton.1 e2) (by decide)
  have hW : ("\\" ++ c ++ "\x7b" ++ t ++ "\x7d").toList
      = ('\\' :: c.toList ++ ['{']) ++ (t.toList ++ ['}']) := by
    simp [String.toList, String.data_append,
      show ("\\" : String).data = ['\\'] from rfl,
      show ("\x7b" : String).data = ['{'] from rfl,
      show ("\x7d" : String).data = ['}'] from rfl]
  have h1 : stripComments (("\\" ++ c ++ "\x7b" ++ t ++ "\x7d").toList)
      = ('\\' :: c.toList ++ ['{']) ++ (stripCommentsAux false t.toList ++
          stripCommentsAux (commentEndState false t.toList) ['}']) := by
    rw [hW]
    show stripCommentsAux false _ = _
    rw [stripCommentsAux_append, stripCommentsAux_false_of_no_percent hpfx,
      commentEndState_false_of_no_percent hpfx, stripCommentsAux_append]
  show countTokens (stripBraces (stripEnv (stripDisplay (stripDollar (stripCmd
      (stripEmph (stripComments (("\\" ++ c ++ "\x7b" ++ t ++ "\x7d").toList)))))))) =
    countTokens (stripBraces (stripEnv (stripDisplay (stripDollar (stripCmd
      (stripEmph (stripComments t.toList)))))))
  rw [h1]
  show countTokens (stripBraces (stripEnv (stripDisplay (stripDollar (stripCmd
      (stripEmph _)))))) = _
  cases hE : commentEndState false t.toList with
  | false =>
    have e1 : stripCommentsAux false ['}'] = ['}'] := rfl
    rw [e1]
    have hsh : ('\\' :: c.toList ++ ['{']) ++ (stripCommentsAux false t.toList ++ ['}'])
        = '\\' :: (c.toList ++ '{' :: (stripCommentsAux false t.toList ++ '}' :: [])) := by
      simp
    rw [hsh]
    have h2 : stripEmph ('\\' :: (c.toList ++ '{' ::
        (stripCommentsAux false t.toList ++ '}' :: []))) = stripCommentsAux false t.toList := by
      show seAux 0 _ = _
      rw [seAux_cons_match (hwrap _ hs_nb [])]
      show stripCommentsAux false t.toList ++ [] = _
      simp
    rw [h2]
    show _ = countTokens (stripBraces (stripEnv (stripDisplay (stripDollar (stripCmd
      (stripEmph (stripCommentsAux false t.toList)))))))
    rw [stripEmph_of_no_rbrace hs_nb]
  | true =>
    have e1 : stripCommentsAux true ['}'] = [] := rfl
    rw [e1]
    have hsh : ('\\' :: c.toList ++ ['{']) ++ (stripCommentsAux false t.toList ++ [])
        = '\\' :: (c.toList ++ '{' :: stripCommentsAux false t.toList) := by
      simp
    rw [hsh]
    have hnb2 : '}' ∉ ('\\' :: (c.toList ++ '{' :: stripCommentsAux false t.toList)) := by
      simp only [List.mem_cons, List.mem_append]
      rintro (e | hx | e | hx)
      · exact absurd e (by decide)
      · exact hbrc hx
      · exact absurd e (by decide)
      · exact hs_nb hx
    rw [stripEmph_of_no_rbrace hnb2]
    have h3 : stripCmd ('\\' :: (c.toList ++ '{' :: stripCommentsAux false t.toList))
        = ' ' :: '{' :: stripCmd (stripCommentsAux false t.toList) :=
      scAux_cmd_wrap halpha hne hs_nb
    rw [h3]
    have h4 : stripDollar (' ' :: '{' :: stripCmd (stripCommentsAux false t.toList))
        = ' ' :: '{' :: stripDollar (stripCmd (stripCommentsAux false t.toList)) := by
      show sdAux 0 _ = _
      rw [sdAux_cons_ne (by decide), sdAux_cons_ne (by decide)]
      rfl
    rw [h4]
    have h5 : stripDisplay (' ' :: '{' :: stripDollar (stripCmd
        (stripCommentsAux false t.toList)))
        = ' ' :: '{' :: stripDisplay (stripDollar (stripCmd
            (stripCommentsAux false t.toList))) := by
      show sdispAux 0 _ = _
      rw [sdispAux_cons_ne (by decide), sdispAux_cons_ne (by decide)]
      rfl
    rw [h5]
    have h6 : stripEnv (' ' :: '{' :: stripDisplay (stripDollar (stripCmd
        (stripCommentsAux false t.toList))))
        = ' ' :: '{' :: stripEnv (stripDisplay (stripDollar (stripCmd
            (stripCommentsAux false t.toList)))) := by
      show senvAux 0 _ = _
      rw [senvAux_cons_ne (by decide), senvAux_cons_ne (by decide)]
      rfl
    rw [h6]
    have h7 : stripBraces (' ' :: '{' :: stripEnv (stripDisplay (stripDollar (stripCmd
        (stripCommentsAux false t.toList)))))
        = ' ' :: ' ' :: stripBraces (stripEnv (stripDisplay (stripDollar (stripCmd
            (stripCommentsAux false t.toList))))) := rfl
    rw [h7]
    show countTokensAux false _ = _
    rw [show ∀ l : List Char, countTokensAux false (' ' :: ' ' :: l) = countTokensAux false l
      from fun l => rfl]
    rw [show stripComments t.toList = stripCommentsAux false t.toList from rfl,
      stripEmph_of_no_rbrace hs_nb]
    rfl

/-!
## Lemmas about the daily-series update
-/

theorem lexLt_asymm : ∀ {a b : List Char}, lexLt a b = true → lexLt b a = false
  | [], [], h => by simp [lexLt] at h
  | [], _ :: _, _ => rfl
  | _ :: _, [], h => by simp [lexLt] at h
  | a :: as, b :: bs, h => by
    by_cases hab : a < b
    · have hba : ¬ b < a := lt_asymm hab
      simp [lexLt, hba, hab]
    · by_cases hba : b < a
      · simp [lexLt, hab, hba] at h
      · have ih := lexLt_asymm (a := as) (b := bs) (by simpa [lexLt, hab, hba] using h)
        simp [lexLt, hab, hba, ih]

/-- The adjacency relation of a series sorted ascending by date:
the right record's date is not smaller. -/
def dateAsc (a b : DailyCount) : Prop := strLtB b.date a.date = false

theorem chain'_insertSorted {e : DailyCount} : ∀ {acc : List DailyCount},
    List.Chain' dateAsc acc → List.Chain' dateAsc (insertSorted acc e) := by
  intro acc
  induction acc with
  | nil => intro _; simp [insertSorted]
  | cons f rest ih =>
    intro hch
    show List.Chain' dateAsc (if strLtB e.date f.date then e :: f :: rest else
      f :: insertSorted rest e)
    by_cases hef : strLtB e.date f.date
    · rw [if_pos hef]
      exact List.chain'_cons.2 ⟨lexLt_asymm hef, hch⟩
    · rw [if_neg hef]
      refine List.chain'_cons'.2 ⟨?_, ih hch.tail⟩
      intro b hb
      cases rest with
      | nil =>
        simp [insertSorted] at hb
        rw [← hb]
        show strLtB e.date f.date = false
        simpa using hef
      | cons g rs =>
        by_cases heg : strLtB e.date g.date
        · simp only [insertSorted, if_pos heg, List.head?_cons, Option.mem_def,
            Option.some.injEq] at hb
          rw [← hb]
          simpa using hef
        · simp only [insertSorted, if_neg heg, List.head?_cons, Option.mem_def,
            Option.some.injEq] at hb
          rw [← hb]
          exact List.chain'_cons.1 hch |>.1

theorem chain'_sortByDate_go : ∀ (l acc : List DailyCount),
    List.Chain' dateAsc acc →
    List.Chain' dateAsc (l.foldl (fun acc e => insertSorted acc e) acc)
  | [], _, h => h
  | _ :: l, _, h => chain'_sortByDate_go l _ (chain'_insertSorted h)

theorem chain'_sortByDate (l : List DailyCount) : List.Chain' dateAsc (sortByDate l) :=
  chain'_sortByDate_go l [] List.chain'_nil

theorem chain'_drop {α : Type} {R : α → α → Prop} :
    ∀ (l : List α), List.Chain' R l → ∀ (n : Nat), List.Chain' R (l.drop n)
  | _, h, 0 => h
  | [], _, _ + 1 => by simp
  | _ :: l, h, n + 1 => chain'_drop l h.tail n

/-- The map that overwrites the words of every record dated `d` fixes a
list containing no record dated `d`. -/
theorem upsert_map_id {d : String} {w : Int} : ∀ {rest : List DailyCount},
    d ∉ rest.map DailyCount.date →
    rest.map (fun e => if e.date = d then (⟨e.date, w⟩ : DailyCount) else e) = rest
  | [], _ => rfl
  | e :: rest, h => by
    have hd : ¬ e.date = d := fun hh => h (by
      rw [← hh]
      exact List.mem_map_of_mem DailyCount.date (List.mem_cons_self e rest))
    have h2 : d ∉ rest.map DailyCount.date := fun hx => h (List.mem_cons_of_mem _ hx)
    simp [hd, upsert_map_id h2]

/-- Under the uniqueness invariant, the first-match upsert of the source is
the keyed pointwise overwrite. -/
theorem upsertToday_eq_map : ∀ {l : List DailyCount} {d : String} {w : Int},
    d ∈ l.map DailyCount.date → (l.map DailyCount.date).Nodup →
    upsertToday l d w = l.map (fun e => if e.date = d then ⟨e.date, w⟩ else e)
  | [], d, w, hmem, _ => by simp at hmem
  | e :: rest, d, w, hmem, hnd => by
    rw [List.map_cons] at hmem hnd
    by_cases he : e.date = d
    · have hnotin : d ∉ rest.map DailyCount.date := by
        have h1 : e.date ∉ rest.map DailyCount.date := (List.nodup_cons.1 hnd).1
        rw [← he]
        exact h1
      show (if e.date = d then (⟨e.date, w⟩ : DailyCount) :: rest
        else e :: upsertToday rest d w) = _
      rw [if_pos he, List.map_cons, if_pos he, upsert_map_id hnotin]
    · have hmem2 : d ∈ rest.map DailyCount.date := by
        rcases List.mem_cons.1 hmem with h1 | h1
        · exact absurd h1.symm he
        · exact h1
      have hnd2 : (rest.map DailyCount.date).Nodup := (List.nodup_cons.1 hnd).2
      show (if e.date = d then (⟨e.date, w⟩ : DailyCount) :: rest
        else e :: upsertToday rest d w) = _
      rw [if_neg he, List.map_cons, if_neg he, upsertToday_eq_map hmem2 hnd2]

/-!
## Lemmas about the chart renderer
-/

theorem computeChangesGo_flat {w : Int} : ∀ {prev : DailyCount} {l : List DailyCount},
    prev.words = w → (∀ e ∈ l, e.words = w) →
    ∀ d ∈ computeChangesGo prev l, d.change = 0
  | _, [], _, _, d, hd => by simp [computeChangesGo] at hd
  | prev, e :: rest, hp, hl, d, hd => by
    rcases List.mem_cons.1 hd with rfl | hd2
    · show e.words - prev.words = 0
      rw [hp, hl e (List.mem_cons_self e rest)]
      simp
    · exact computeChangesGo_flat (hl e (List.mem_cons_self e rest))
        (fun x hx => hl x (List.mem_cons_of_mem e hx)) d hd2

theorem computeChanges_flat {w : Int} {l : List DailyCount}
    (h : ∀ e ∈ l, e.words = w) : ∀ d ∈ computeChanges l, d.change = 0 := by
  cases l with
  | nil => intro d hd; simp [computeChanges] at hd
  | cons e rest =>
    intro d hd
    rcases List.mem_cons.1 hd with rfl | hd2
    · rfl
    · exact computeChangesGo_flat (h e (List.mem_cons_self e rest))
        (fun x hx => h x (List.mem_cons_of_mem e hx)) d hd2

theorem foldl_max_zero : ∀ {rest : List DeltaRec},
    (∀ d ∈ rest, d.change = 0) →
    rest.foldl (fun a d => max a (d.change.natAbs : Int)) 0 = 0
  | [], _ => rfl
  | d :: rest, h => by
    have hd : d.change = 0 := h d (List.mem_cons_self d rest)
    have h2 : ∀ x ∈ rest, x.change = 0 := fun x hx => h x (List.mem_cons_of_mem d hx)
    show rest.foldl _ (max 0 (d.change.natAbs : Int)) = 0
    rw [hd]
    exact foldl_max_zero h2

theorem maxChangeOf_flat {changes : List DeltaRec} (hne : changes ≠ [])
    (h : ∀ d ∈ changes, d.change = 0) : maxChangeOf changes = 1 := by
  cases changes with
  | nil => exact absurd rfl hne
  | cons c rest =>
    have hraw : rawMaxChange (c :: rest) = 0 := by
      show rest.foldl _ (c.change.natAbs : Int) = 0
      rw [h c (List.mem_cons_self c rest)]
      exact foldl_max_zero fun x hx => h x (List.mem_cons_of_mem c hx)
    show (if rawMaxChange (c :: rest) = 0 then 1 else rawMaxChange (c :: rest)) = 1
    rw [hraw]
    simp

/-- Taking everything before a final `t ++ "</text>\n</svg>"` recovers the
part that does not depend on the injected date. -/
theorem svgTake (B t : String) :
    ((B ++ t) ++ "</text>\n</svg>").toList.take
      (((B ++ t) ++ "</text>\n</svg>").length - (t.length + 14)) = B.toList := by
  have hlen : ((B ++ t) ++ "</text>\n</svg>").length = B.length + t.length + 14 := by
    rw [String.length_append, String.length_append,
      show ("</text>\n</svg>" : String).length = 14 from rfl]
  rw [hlen, show B.length + t.length + 14 - (t.length + 14) = B.length by omega,
    show ((B ++ t) ++ "</text>\n</svg>").toList
      = B.toList ++ (t.toList ++ ("</text>\n</svg>" : String).toList) from by
        simp [String.toList, String.data_append],
    show B.length = B.toList.length from rfl]
  exact List.take_left _ _

/-!
## The claims
-/

/-- Claim C1 (code bug in the source): the claim says a non-nested block
math environment is removed from its begin-marker to its matching
end-marker so that no body token is counted.  In the code the generic
command regex (line 54) runs first and consumes every `\begin\x7b...\x7d`
and `\end\x7b...\x7d` marker, so the environment regex (line 59) never
matches and the body tokens survive: the input below, whose environment
body is `E = mc^2`, counts 3 words instead of 0. -/
theorem c1_env_body_is_counted :
    count_words_in_tex_content
      "\\begin\x7bequation\x7d E = mc^2 \\end\x7bequation\x7d" = 3 := by
  decide

/-- Claim C2 (counterexample): the chart renderer reads the wall clock
(line 97) and embeds the current UTC date in its output (line 131), so two
invocations on the same series at different dates yield different
strings. -/
theorem c2_counterexample :
    generate_chart_svg [⟨"2026-01-01", 100⟩] "2026-10-11" ≠
      generate_chart_svg [⟨"2026-01-01", 100⟩] "2026-10-12" := by
  decide

/-- Claim C2 (amended): the renderer is a pure function of the series and
the injected current date, and the date influences nothing but the
trailing `Updated:` timestamp: everything before the final
`today ++ "</text>\n</svg>"` is identical for any two dates, and the
empty-series path does not consult the date at all. -/
theorem c2_deterministic_given_date (dc : List DailyCount) (t₁ t₂ : String) :
    (generate_chart_svg dc t₁).toList.take
        ((generate_chart_svg dc t₁).length - (t₁.length + 14)) =
      (generate_chart_svg dc t₂).toList.take
        ((generate_chart_svg dc t₂).length - (t₂.length + 14)) ∧
    generate_progress_svg [] t₁ = generate_progress_svg [] t₂ := by
  constructor
  · simp only [generate_chart_svg]
    exact (svgTake _ _).trans (svgTake _ _).symm
  · rfl

/-- Claim C3 (counterexample): the comment regex `%.*$` does not test for
a preceding backslash.  On the single-line input `ab \% cd`, whose only
comment marker is escaped, the stage still removes everything from the
marker on. -/
theorem c3_counterexample :
    stripComments (String.toList "ab \\% cd") = String.toList "ab \\" ∧
      stripComments (String.toList "ab \\% cd") ≠ String.toList "ab \\% cd" := by
  decide

/-- Claim C3 (amended): on any single line the comment stage keeps exactly
the characters before the first comment marker, whether or not that marker
is preceded by a backslash; escaping does not protect it. -/
theorem c3_comment_strip_from_first_marker (l : List Char) (h : '\n' ∉ l) :
    stripComments l = l.takeWhile (fun c => c != '%') := by
  induction l with
  | nil => rfl
  | cons c rest ih =>
    have hr : '\n' ∉ rest := fun hx => h (List.mem_cons_of_mem c hx)
    by_cases hc : c = '%'
    · have hnr : '\n' ∉ rest := hr
      show stripCommentsAux false (c :: rest) = _
      simp [stripCommentsAux, hc, List.takeWhile_cons,
        stripCommentsAux_true_of_no_newline hnr]
    · show stripCommentsAux false (c :: rest) = _
      simp only [stripCommentsAux, if_neg hc, List.takeWhile_cons]
      have hb : (c != '%') = true := by simpa using hc
      rw [hb]
      simpa using ih hr

/-- Witness for the amended claim C3 at the concrete escaped-marker
line. -/
theorem c3_witness :
    '\n' ∉ String.toList "ab \\% cd" ∧
      stripComments (String.toList "ab \\% cd") =
        (String.toList "ab \\% cd").takeWhile (fun c => c != '%') :=
  ⟨by decide, c3_comment_strip_from_first_marker _ (by decide)⟩

/-- Claim C4 (counterexample): `[^$]` matches newlines, so a
dollar-delimited span crossing a line break is stripped: on
`a $x\ny$ b` the math (newline included) is replaced by one space and the
count is 2, not the 4 the single-line-scope claim would give. -/
theorem c4_counterexample :
    stripDollar (String.toList "a $x\ny$ b") = String.toList "a   b" ∧
      count_words_in_tex_content "a $x\ny$ b" = 2 := by
  decide

/-- Claim C4 (amended): a single-dollar span is replaced by one space up to
the next dollar sign, and the span may contain any characters other than a
dollar, newlines included; the body must be non-empty.  In particular
`count_words("a $x+y=z$ b") = 2`. -/
theorem c4_inline_math_strip (m rest : List Char) (h1 : '$' ∉ m) (h2 : m ≠ []) :
    stripDollar ('$' :: (m ++ '$' :: rest)) = ' ' :: stripDollar rest ∧
      count_words_in_tex_content "a $x+y=z$ b" = 2 :=
  ⟨sdAux_match h1 h2 rest, by decide⟩

/-- Witness for the amended claim C4: the span `x`, newline, `y` is
stripped as one match. -/
theorem c4_witness :
    '$' ∉ (['x', '\n', 'y'] : List Char) ∧ (['x', '\n', 'y'] : List Char) ≠ [] ∧
      (stripDollar ('$' :: ((['x', '\n', 'y'] : List Char) ++ '$' :: [' ', 'b'])) =
          ' ' :: stripDollar [' ', 'b'] ∧
        count_words_in_tex_content "a $x+y=z$ b" = 2) :=
  ⟨by decide, by decide, c4_inline_math_strip ['x', '\n', 'y'] [' ', 'b'] (by decide) (by decide)⟩

/-- Claim C5: starting from an empty series, 31 daily updates with 31
distinct ascending dates leave exactly the 30 most recent records in
ascending order; and in general the update step keeps at most 30 records,
leaves them sorted ascending by date, and keeps a suffix of the date-sorted
upserted series (so only the oldest records are dropped). -/
theorem c5_retention :
    ((List.range 31).foldl
        (fun acc i =>
          updateHistory acc
            ("2026-01-" ++ (if i + 1 < 10 then "0" ++ toString (i + 1) else toString (i + 1)))
            ((i : Int) + 1)) []
      = (List.range 30).map fun i =>
          ⟨"2026-01-" ++ (if i + 2 < 10 then "0" ++ toString (i + 2) else toString (i + 2)),
            (i : Int) + 2⟩) ∧
    ∀ (l : List DailyCount) (d : String) (w : Int),
      (updateHistory l d w).length ≤ 30 ∧
        List.Chain' dateAsc (updateHistory l d w) ∧
        updateHistory l d w <:+ sortByDate (upsertToday l d w) := by
  refine ⟨by decide, fun l d w => ⟨?_, ?_, ?_⟩⟩
  · show ((sortByDate (upsertToday l d w)).drop _).length ≤ 30
    rw [List.length_drop]
    omega
  · exact chain'_drop _ (chain'_sortByDate _) _
  · exact List.drop_suffix _ _

/-- Claim C6: provided the series respects the uniqueness invariant and
already holds a record for the given date, the upsert of lines 172-180
keeps the length and is exactly the keyed overwrite: the matching record
gets the new word count, every other record is untouched, and all dates
stay in place. -/
theorem c6_upsert_overwrites (l : List DailyCount) (d : String) (w : Int)
    (hmem : d ∈ l.map DailyCount.date) (hnd : (l.map DailyCount.date).Nodup) :
    (upsertToday l d w).length = l.length ∧
      upsertToday l d w = l.map fun e => if e.date = d then ⟨e.date, w⟩ else e := by
  have h := @upsertToday_eq_map l d w hmem hnd
  exact ⟨by rw [h, List.length_map], h⟩

/-- Witness for claim C6 on a two-record series. -/
theorem c6_witness :
    "2026-01-02" ∈ ([⟨"2026-01-01", 5⟩, ⟨"2026-01-02", 7⟩] : List DailyCount).map
        DailyCount.date ∧
      (([⟨"2026-01-01", 5⟩, ⟨"2026-01-02", 7⟩] : List DailyCount).map
        DailyCount.date).Nodup ∧
      ((upsertToday [⟨"2026-01-01", 5⟩, ⟨"2026-01-02", 7⟩] "2026-01-02" 9).length =
          ([⟨"2026-01-01", 5⟩, ⟨"2026-01-02", 7⟩] : List DailyCount).length ∧
        upsertToday [⟨"2026-01-01", 5⟩, ⟨"2026-01-02", 7⟩] "2026-01-02" 9 =
          ([⟨"2026-01-01", 5⟩, ⟨"2026-01-02", 7⟩] : List DailyCount).map
            fun e => if e.date = "2026-01-02" then ⟨e.date, 9⟩ else e) :=
  ⟨by decide, by decide,
    c6_upsert_overwrites [⟨"2026-01-01", 5⟩, ⟨"2026-01-02", 7⟩] "2026-01-02" 9
      (by decide) (by decide)⟩

/-- Claim C7 (counterexample): wrapping is not count-invariant for every
text: with `t` = `x\x7dy` (which contains a closing brace), the wrapped
form counts 1 word while `t` counts 2. -/
theorem c7_counterexample :
    count_words_in_tex_content "\\textbf\x7bx\x7dy\x7d" = 1 ∧
      count_words_in_tex_content "x\x7dy" = 2 := by
  decide

/-- Claim C7 (amended): for every command of the allow-list and every text
containing no closing brace, wrapping the text in the command does not
change the word count; in particular `\textbf\x7bhello world\x7d` counts
2, as does `hello world`. -/
theorem c7_emphasis_wrap_invariant :
    (∀ c ∈ (["textbf", "textit", "emph", "underline"] : List String), ∀ t : String,
        '}' ∉ t.toList →
        count_words_in_tex_content ("\\" ++ c ++ "\x7b" ++ t ++ "\x7d") =
          count_words_in_tex_content t) ∧
      count_words_in_tex_content "\\textbf\x7bhello world\x7d" = 2 ∧
      count_words_in_tex_content "hello world" = 2 :=
  ⟨fun _ hc t ht => count_words_wrap_eq hc t ht, by decide, by decide⟩

/-- Witness for the amended claim C7 at `textbf` and `hello world`. -/
theorem c7_witness :
    "textbf" ∈ (["textbf", "textit", "emph", "underline"] : List String) ∧
      '}' ∉ ("hello world" : String).toList ∧
      count_words_in_tex_content ("\\" ++ "textbf" ++ "\x7b" ++ "hello world" ++ "\x7d") =
        count_words_in_tex_content "hello world" :=
  ⟨by decide, by decide,
    c7_emphasis_wrap_invariant.1 "textbf" (by decide) "hello world" (by decide)⟩

/-- Claim C8: on a non-empty series whose records all carry the same word
total, every day-over-day change is 0, the `maxAbsChange` guard substitutes
the divisor 1 (so no division by zero can occur), and every bar is rendered
with height string `1.0` with its top edge at the baseline `y = 115.0`. -/
theorem c8_flat_series (l : List DailyCount) (w : Int) (hne : l ≠ [])
    (hflat : ∀ e ∈ l, e.words = w) :
    maxChangeOf (computeChanges l) = 1 ∧
      ∀ d ∈ computeChanges l,
        d.change = 0 ∧
        fmt1 (Frac.maxF (barHeightQ (maxChangeOf (computeChanges l)) d.change)
          (Frac.ofInt 1)) = "1.0" ∧
        fmt1 (barYQ (maxChangeOf (computeChanges l)) d.change) = "115.0" := by
  have hflat' := computeChanges_flat hflat
  have hcne : computeChanges l ≠ [] := by
    cases l with
    | nil => exact absurd rfl hne
    | cons e rest => exact List.cons_ne_nil _ _
  have hmax := maxChangeOf_flat hcne hflat'
  refine ⟨hmax, fun d hd => ⟨hflat' d hd, ?_, ?_⟩⟩
  · rw [hmax, hflat' d hd]
    decide
  · rw [hmax, hflat' d hd]
    decide

/-- Witness for claim C8 on a concrete flat two-day series. -/
theorem c8_witness :
    (([⟨"2026-01-01", 5⟩, ⟨"2026-01-02", 5⟩] : List DailyCount) ≠ []) ∧
      (∀ e ∈ ([⟨"2026-01-01", 5⟩, ⟨"2026-01-02", 5⟩] : List DailyCount), e.words = 5) ∧
      (maxChangeOf (computeChanges [⟨"2026-01-01", 5⟩, ⟨"2026-01-02", 5⟩]) = 1 ∧
        ∀ d ∈ computeChanges [⟨"2026-01-01", 5⟩, ⟨"2026-01-02", 5⟩],
          d.change = 0 ∧
          fmt1 (Frac.maxF (barHeightQ
            (maxChangeOf (computeChanges [⟨"2026-01-01", 5⟩, ⟨"2026-01-02", 5⟩]))
            d.change) (Frac.ofInt 1)) = "1.0" ∧
          fmt1 (barYQ
            (maxChangeOf (computeChanges [⟨"2026-01-01", 5⟩, ⟨"2026-01-02", 5⟩]))
            d.change) = "115.0") :=
  ⟨by decide, by decide,
    c8_flat_series [⟨"2026-01-01", 5⟩, ⟨"2026-01-02", 5⟩] 5 (by decide) (by decide)⟩

/-- Claim C9: rendering the empty series yields exactly the constant
placeholder, which contains the fixed title and the `No data yet` message
and none of the bar markup (no tooltip element and neither bar color) —
independent of the current date. -/
theorem c9_empty_state (today : String) :
    generate_progress_svg [] today = generate_empty_svg ∧
      containsSub ("No data yet. Start writing!".toList) generate_empty_svg.toList = true ∧
      containsSub ("LaTeX Writing Progress".toList) generate_empty_svg.toList = true ∧
      containsSub ("<title>".toList) generate_empty_svg.toList = false ∧
      containsSub ("#2ea44f".toList) generate_empty_svg.toList = false ∧
      containsSub ("#cf222e".toList) generate_empty_svg.toList = false :=
  ⟨rfl, by decide, by decide, by decide, by decide, by decide⟩

/-- Claim C10: on text free of the five markup-significant characters the
whole stripping pipeline is the identity, so the count is exactly the
number of maximal whitespace-separated tokens; and the empty string counts
0. -/
theorem c10_plain_text (t : String)
    (h : ∀ c ∈ t.toList, c ≠ '%' ∧ c ≠ '\\' ∧ c ≠ '$' ∧ c ≠ '{' ∧ c ≠ '}') :
    count_words_in_tex_content t = countTokens t.toList ∧
      count_words_in_tex_content "" = 0 := by
  have h1 : '%' ∉ t.toList := fun hx => (h _ hx).1 rfl
  have h2 : '\\' ∉ t.toList := fun hx => (h _ hx).2.1 rfl
  have h3 : '$' ∉ t.toList := fun hx => (h _ hx).2.2.1 rfl
  have h4 : '{' ∉ t.toList := fun hx => (h _ hx).2.2.2.1 rfl
  have h5 : '}' ∉ t.toList := fun hx => (h _ hx).2.2.2.2 rfl
  constructor
  · show countTokens (stripBraces (stripEnv (stripDisplay (stripDollar (stripCmd
      (stripEmph (stripComments t.toList))))))) = countTokens t.toList
    rw [show stripComments t.toList = stripCommentsAux false t.toList from rfl,
      stripCommentsAux_false_of_no_percent h1, stripEmph_of_no_bslash h2,
      stripCmd_of_no_bslash h2, stripDollar_of_no_dollar h3,
      stripDisplay_of_no_bslash h2, stripEnv_of_no_bslash h2,
      stripBraces_of_no_brace h4 h5]
  · decide

/-- Witness for claim C10 at plain two-word prose. -/
theorem c10_witness :
    (∀ c ∈ ("hello world" : String).toList,
        c ≠ '%' ∧ c ≠ '\\' ∧ c ≠ '$' ∧ c ≠ '{' ∧ c ≠ '}') ∧
      (count_words_in_tex_content "hello world" =
          countTokens ("hello world" : String).toList ∧
        count_words_in_tex_content "" = 0) :=
  ⟨by decide, c10_plain_text "hello world" (by decide)⟩
